import Mathlib

/-!
Verification of the search-engine repository against its specification.

Each Python module relevant to the claims is shallowly embedded as Lean
definitions over `List Char` (for strings), `Nat`/`Int` (for machine
integers), and `ℚ` (for exact time/score arithmetic where the source uses
floats).  Python dictionaries are modelled as association lists preserving
insertion order, `defaultdict` via explicit default values, sets via
`Finset` or lists, and Python's stable sorts via insertion sort.
-/

/-! ## Basic string utilities (modelling Python `str` operations, ASCII) -/

/-- `p` is a prefix of `l` (models Python `str.startswith`). -/
def isPrefixL : List Char → List Char → Bool
  | [], _ => true
  | _ :: _, [] => false
  | c :: p, d :: l => c = d && isPrefixL p l

/-- `s` is a suffix of `l` (models Python `str.endswith`). -/
def isSuffixL (s l : List Char) : Bool :=
  isPrefixL s.reverse l.reverse

/-- `sub` occurs as a contiguous substring of `l` (models Python `in`). -/
def containsSub : List Char → List Char → Bool
  | [], sub => sub.isEmpty
  | c :: t, sub => isPrefixL sub (c :: t) || containsSub t sub

/-- Split at the first occurrence of `c` (models `str.split(c, 1)`);
`none` when `c` does not occur. -/
def splitFirst : List Char → Char → Option (List Char × List Char)
  | [], _ => none
  | d :: t, c =>
    if d = c then some ([], t)
    else
      match splitFirst t c with
      | none => none
      | some (a, b) => some (d :: a, b)

/-- Split at the last occurrence of `c` (models `str.rfind`-based splitting). -/
def splitLast : List Char → Char → Option (List Char × List Char)
  | [], _ => none
  | d :: t, c =>
    match splitLast t c with
    | some (a, b) => some (d :: a, b)
    | none => if d = c then some ([], t) else none

/-- Split on every occurrence of `c`, keeping empty pieces
(models Python `str.split(c)`). -/
def splitOnChar : List Char → Char → List (List Char)
  | [], _ => [[]]
  | d :: t, c =>
    if d = c then [] :: splitOnChar t c
    else
      match splitOnChar t c with
      | [] => [[d]]
      | h :: r => (d :: h) :: r

/-- Join pieces with separator `c` (models `c.join(parts)`). -/
def joinWithChar (c : Char) : List (List Char) → List Char
  | [] => []
  | [x] => x
  | x :: y :: r => x ++ c :: joinWithChar c (y :: r)

/-- Remove all trailing occurrences of `c` (models `str.rstrip(c)`). -/
def rstripChar (l : List Char) (c : Char) : List Char :=
  (l.reverse.dropWhile (fun d => d = c)).reverse

/-- Python whitespace characters recognised by `str.strip` and regex `\s`. -/
def isPySpace (c : Char) : Bool :=
  c = ' ' || c = '\t' || c = '\n' || c = '\x0d' || c = '\x0c' || c = '\x0b'

/-- Strip leading and trailing whitespace (models `str.strip()`). -/
def stripL (l : List Char) : List Char :=
  ((l.dropWhile isPySpace).reverse.dropWhile isPySpace).reverse

/-- ASCII lowercasing of a whole string (models `str.lower()` on the
ASCII inputs used throughout the repository). -/
def lowerL (l : List Char) : List Char :=
  l.map Char.toLower

/-- Lexicographic (code-point) order on strings, as Python compares `str`. -/
def lexLe : List Char → List Char → Bool
  | [], _ => true
  | _ :: _, [] => false
  | c :: a, d :: b => if c = d then lexLe a b else decide (c < d)

/-- Stable insertion into a sorted list: ties keep the inserted element
first, matching the stability of Python's sort. -/
def insertLe (le : List Char → List Char → Bool) (x : List Char) :
    List (List Char) → List (List Char)
  | [] => [x]
  | y :: ys => if le x y then x :: y :: ys else y :: insertLe le x ys

/-- Stable sort (models Python `sorted` on strings). -/
def sortLe (le : List Char → List Char → Bool) : List (List Char) → List (List Char)
  | [] => []
  | x :: xs => insertLe le x (sortLe le xs)

/-! ## `urllib.parse` model

Faithful model of the parts of CPython's `urlsplit` / `urlparse` /
`urlunparse` exercised by the repository: scheme detection, `//netloc`
extraction, fragment and query splitting, `;params` splitting, and
reassembly. -/

/-- Characters allowed inside a URL scheme (`string.ascii_letters`,
digits, and `+-.`). -/
def isSchemeChar (c : Char) : Bool :=
  c.isAlpha || c.isDigit || c = '+' || c = '-' || c = '.'

/-- Result of `urllib.parse.urlparse`. -/
structure UrlParts where
  scheme : List Char
  netloc : List Char
  path : List Char
  params : List Char
  query : List Char
  fragment : List Char
deriving Repr, DecidableEq

/-- The character that terminates the netloc portion (`_splitnetloc`
stops at the first of `/?#`). -/
def isNetlocEnd (c : Char) : Bool :=
  c = '/' || c = '?' || c = '#'

/-- Model of `urllib.parse.urlsplit` (without the IPv6 bracket check,
which only raises on malformed input). -/
def urlsplitL (url : List Char) : UrlParts :=
  let (scheme, rest) :=
    match splitFirst url ':' with
    | some (before, after) =>
      if !before.isEmpty && (url.headD ' ').isAlpha && before.all isSchemeChar then
        (lowerL before, after)
      else ([], url)
    | none => ([], url)
  let (netloc, rest) :=
    if isPrefixL ['/', '/'] rest then
      ((rest.drop 2).takeWhile (fun c => !isNetlocEnd c),
       (rest.drop 2).dropWhile (fun c => !isNetlocEnd c))
    else ([], rest)
  let (rest, fragment) :=
    match splitFirst rest '#' with
    | some (a, b) => (a, b)
    | none => (rest, [])
  let (path, query) :=
    match splitFirst rest '?' with
    | some (a, b) => (a, b)
    | none => (rest, [])
  ⟨scheme, netloc, path, [], query, fragment⟩

/-- Model of `urllib.parse._splitparams`. -/
def splitParamsL (path : List Char) : List Char × List Char :=
  if containsSub path ['/'] then
    match splitLast path '/' with
    | some (before, seg) =>
      match splitFirst seg ';' with
      | some (a, b) => (before ++ '/' :: a, b)
      | none => (path, [])
    | none => (path, [])
  else
    match splitFirst path ';' with
    | some (a, b) => (a, b)
    | none => (path, [])

/-- Model of `urllib.parse.urlparse`. -/
def urlparseL (url : List Char) : UrlParts :=
  let s := urlsplitL url
  if containsSub s.path [';'] then
    let (p, par) := splitParamsL s.path
    { s with path := p, params := par }
  else s

/-- Model of `urllib.parse.urlunparse` (via `urlunsplit`). -/
def urlunparseL (u : UrlParts) : List Char :=
  let url := if !u.params.isEmpty then u.path ++ ';' :: u.params else u.path
  let url :=
    if !u.netloc.isEmpty || isPrefixL ['/', '/'] url then
      let url2 := if !url.isEmpty && !isPrefixL ['/'] url then '/' :: url else url
      '/' :: '/' :: (u.netloc ++ url2)
    else url
  let url := if !u.scheme.isEmpty then u.scheme ++ ':' :: url else url
  let url := if !u.query.isEmpty then url ++ '?' :: u.query else url
  if !u.fragment.isEmpty then url ++ '#' :: u.fragment else url

/-! ## `DuplicateDetector.normalize_url` (src/duplicate_detector.py) -/

/-- The tracking query parameters dropped by `normalize_url`. -/
def trackingParams : List (List Char) :=
  ["utm_source".data, "utm_medium".data, "utm_campaign".data,
   "utm_term".data, "utm_content".data, "ref".data, "source".data]

/-- One query parameter survives normalisation when it contains `=` and
its key (the part before the first `=`) is not a tracking parameter. -/
def keepQueryParam (p : List Char) : Bool :=
  match splitFirst p '=' with
  | some (key, _) => !(decide (key ∈ trackingParams))
  | none => false

/-- Model of `DuplicateDetector.normalize_url`: the source lowercases the
whole URL before parsing, filters and sorts the query, strips all trailing
`/` from the path, and reassembles without the fragment. -/
def normalize_urlL (url : List Char) : List Char :=
  let parsed := urlparseL (lowerL url)
  let normalized_query :=
    if !parsed.query.isEmpty then
      joinWithChar '&' (sortLe lexLe ((splitOnChar parsed.query '&').filter keepQueryParam))
    else []
  urlunparseL
    { scheme := parsed.scheme
      netloc := parsed.netloc
      path := rstripChar parsed.path '/'
      params := parsed.params
      query := normalized_query
      fragment := [] }

/-- String-level wrapper for `normalize_url`. -/
def normalize_url (url : String) : String :=
  ⟨normalize_urlL url.data⟩

/-! ## C3: the canonical-URL specification (amended) -/

/-- Amended specification of the canonical path: remove all trailing `/`
from the path, including the root (the path `/` becomes empty). -/
def canonicalPathSpec (p : List Char) : List Char :=
  rstripChar p '/'

/-- Amended specification of one query parameter's survival: it must be a
`key=value` pair whose key is outside the tracking list. -/
def specKeepParam (p : List Char) : Bool :=
  match splitFirst p '=' with
  | some (key, _) => decide (key ∉ trackingParams)
  | none => false

/-- Amended specification of the canonical query: drop tracking and
key-less parameters, sort the survivors lexicographically, rejoin. -/
def canonicalQuerySpec (q : List Char) : List Char :=
  if q.isEmpty then []
  else joinWithChar '&' (sortLe lexLe ((splitOnChar q '&').filter specKeepParam))

/-- Amended specification of canonicalisation: lowercase the entire URL,
parse it, strip the fragment, canonicalise path and query, reassemble. -/
def canonical_url_specL (url : List Char) : List Char :=
  let parsed := urlparseL (lowerL url)
  urlunparseL
    ⟨parsed.scheme, parsed.netloc, canonicalPathSpec parsed.path,
     parsed.params, canonicalQuerySpec parsed.query, []⟩

theorem specKeepParam_eq : specKeepParam = keepQueryParam := by
  funext p
  unfold specKeepParam keepQueryParam
  cases splitFirst p '=' with
  | none => rfl
  | some kv => simp [decide_not]

/-- C3 (counterexample): the claim predicts that the root path keeps its
trailing `/` and that only scheme and host are lowercased; the code strips
the root `/` and lowercases the path as well. -/
theorem c3_counterexample :
    (normalize_url "http://ex.com/" = "http://ex.com"
      ∧ ("http://ex.com" : String) ≠ "http://ex.com/")
    ∧ (normalize_url "http://EX.com/Path" = "http://ex.com/path"
      ∧ ("http://ex.com/path" : String) ≠ "http://ex.com/Path") := by
  decide

/-- C3 (amended): `normalize_url` lowercases the entire URL (scheme, host,
path and query), strips the fragment, removes all trailing `/` from the
path including the root, drops the tracking parameters and any parameter
without `=`, and sorts the remaining `key=value` pairs lexicographically;
in particular it maps `http://EX.com/p/?utm_source=x&a=1#frag` to
`http://ex.com/p?a=1`. -/
theorem c3_normalize_url_canonical :
    (∀ u : String, normalize_url u = ⟨canonical_url_specL u.data⟩)
    ∧ normalize_url "http://EX.com/p/?utm_source=x&a=1#frag" = "http://ex.com/p?a=1"
    ∧ normalize_url "http://ex.com/p?b=2&a=1&utm_medium=m&ref=r&flag" = "http://ex.com/p?a=1&b=2" := by
  refine ⟨fun u => ?_, by decide, by decide⟩
  show String.mk (normalize_urlL u.data) = String.mk (canonical_url_specL u.data)
  unfold normalize_urlL canonical_url_specL canonicalQuerySpec canonicalPathSpec
  rw [specKeepParam_eq]
  cases h : (urlparseL (lowerL u.data)).query.isEmpty <;> simp [h]

/-! ## Word-boundary regex search (models `re.search` for the patterns
`\b(w1|w2|...)\b` used by `QueryParser`) -/

/-- Python regex `\w` (ASCII range, as used by the query patterns). -/
def isWordChar (c : Char) : Bool :=
  c.isAlphanum || c = '_'

/-- After matching `w` at the front of `l`, the right-hand `\b` holds when
the next character is absent or not a word character. -/
def boundaryOkAfter (w l : List Char) : Bool :=
  match l.drop w.length with
  | [] => true
  | c :: _ => !isWordChar c

/-- `w` occurs somewhere in `l` with `\b` on both sides; `leftOk` records
whether the character before the current position is a non-word character. -/
def containsWordFrom (w : List Char) : List Char → Bool → Bool
  | [], leftOk => leftOk && w.isEmpty
  | c :: t, leftOk =>
    (leftOk && isPrefixL w (c :: t) && boundaryOkAfter w (c :: t))
      || containsWordFrom w t (!isWordChar c)

/-- Models `re.search(r'\b(w)\b', l) is not None`. -/
def containsWordL (w l : List Char) : Bool :=
  containsWordFrom w l true

/-- Models `re.search(r'\b(w1|w2|...)\b', l) is not None`. -/
def containsAnyWord (ws : List (List Char)) (l : List Char) : Bool :=
  ws.any (fun w => containsWordL w l)

/-- Replace every non-overlapping occurrence of `pat` by `rep`, scanning
left to right (models `str.replace`); the fuel equals the scanned length,
which never runs out since every step consumes at least one character. -/
def replaceAllFuel (pat rep : List Char) : Nat → List Char → List Char
  | 0, l => l
  | fuel + 1, l =>
    match l with
    | [] => []
    | c :: t =>
      if !pat.isEmpty && isPrefixL pat (c :: t) then
        rep ++ replaceAllFuel pat rep fuel ((c :: t).drop pat.length)
      else c :: replaceAllFuel pat rep fuel t

/-- Models `str.replace(pat, rep)` for non-empty `pat`. -/
def replaceAllL (l pat rep : List Char) : List Char :=
  replaceAllFuel pat rep l.length l

/-! ## `QueryParser` (src/query_parser.py) -/

/-- ASCII uppercasing (models `str.upper()` on the ASCII inputs used). -/
def upperL (l : List Char) : List Char :=
  l.map Char.toUpper

/-- The wh-question leading words tested by `startswith`. -/
def whWords : List (List Char) :=
  ["what".data, "how".data, "when".data, "where".data, "why".data, "who".data]

/-- Model of `QueryParser._detect_query_type`.  Note the source checks
`'and' in query_lower` etc. as plain substrings, checks `'"' in query`
before the question tests, and applies the wh-`startswith` to the
original-case query. -/
def detect_query_type (query : List Char) : List Char :=
  let ql := lowerL query
  if containsSub ql "and".data || containsSub ql "or".data || containsSub ql "not".data then
    "boolean".data
  else if containsSub query ['"'] then
    "phrase".data
  else if isPrefixL "site:".data query || containsSub query "filetype:".data then
    "filtered".data
  else if isSuffixL ['?'] query || whWords.any (fun w => isPrefixL w query) then
    "question".data
  else
    "simple".data

/-- The navigational word patterns of `_detect_intent`. -/
def navigationalWords : List (List Char) :=
  ["facebook".data, "twitter".data, "instagram".data, "youtube".data,
   "amazon".data, "google".data, "login".data, "sign in".data,
   "homepage".data, "official site".data]

/-- The transactional word patterns of `_detect_intent`. -/
def transactionalWords : List (List Char) :=
  ["buy".data, "purchase".data, "order".data, "price".data, "cost".data,
   "cheap".data, "discount".data, "deal".data, "download".data,
   "install".data, "get".data, "free".data]

/-- Model of `QueryParser._detect_intent`. -/
def detect_intent (query : List Char) : List Char :=
  let ql := lowerL query
  if containsAnyWord navigationalWords ql then "navigational".data
  else if containsAnyWord transactionalWords ql then "transactional".data
  else if isSuffixL ['?'] query || whWords.any (fun w => isPrefixL w ql) then
    "informational".data
  else "informational".data

/-- Model of `re.search(tag + r'([^\s]+)', query, re.IGNORECASE)`: scan for
the first position where `tag` matches case-insensitively and is followed
by at least one non-whitespace character; capture that run. -/
def findAfterTag (tag : List Char) : List Char → Option (List Char)
  | [] => none
  | c :: t =>
    if isPrefixL tag (lowerL (c :: t)) then
      match ((c :: t).drop tag.length).takeWhile (fun d => !isPySpace d) with
      | [] => findAfterTag tag t
      | cap => some cap
    else findAfterTag tag t

/-- Model of `QueryParser._extract_filters`: `site:` and `filetype:`
captures, then the first matching date period, inserted in source order. -/
def extract_filters (query : List Char) : List (List Char × List Char) :=
  let f : List (List Char × List Char) := []
  let f := match findAfterTag "site:".data query with
    | some v => f ++ [("site".data, v)]
    | none => f
  let f := match findAfterTag "filetype:".data query with
    | some v => f ++ [("filetype".data, v)]
    | none => f
  let ql := lowerL query
  if containsAnyWord ["today".data, "yesterday".data] ql then
    f ++ [("date".data, "last_day".data)]
  else if containsWordL "last week".data ql then f ++ [("date".data, "last_week".data)]
  else if containsWordL "last month".data ql then f ++ [("date".data, "last_month".data)]
  else if containsWordL "last year".data ql then f ++ [("date".data, "last_year".data)]
  else f

/-- The quoted groups matched by `re.finditer(r'"([^"]*)"', query)`, in
order; the state holds the reversed inside of an open quote. -/
def findQuotedAux : List Char → Option (List Char) → List (List Char)
  | [], _ => []
  | c :: t, none =>
    if c = '"' then findQuotedAux t (some []) else findQuotedAux t none
  | c :: t, some acc =>
    if c = '"' then acc.reverse :: findQuotedAux t none
    else findQuotedAux t (some (c :: acc))

/-- Model of `QueryParser._extract_phrases`, with the text processor
abstracted as `processText` (it lives in a separate indexer module). -/
def extract_phrases (processText : List Char → List (List Char)) (query : List Char) :
    List (List (List Char)) × List Char :=
  let found := findQuotedAux query none
  let phrases := (found.filter (fun m => !(stripL m).isEmpty)).map
    (fun m => processText (stripL m))
  let remaining := found.foldl (fun r m => replaceAllL r ('"' :: (m ++ ['"'])) [' ']) query
  (phrases, stripL remaining)

/-- The boolean operator matched at the head of `l` (with `\b` on both
sides), returned in original case, if any; models one step of
`re.finditer(r'\b(AND|OR|NOT)\b', query, re.IGNORECASE)`. -/
def opAtHead (l : List Char) (leftOk : Bool) : Option (List Char) :=
  let tryW (w : List Char) : Option (List Char) :=
    if leftOk && isPrefixL w (lowerL l) && boundaryOkAfter w l then
      some (l.take w.length)
    else none
  match tryW "and".data with
  | some m => some m
  | none =>
    match tryW "or".data with
    | some m => some m
    | none => tryW "not".data

/-- All operator matches, scanning left to right, non-overlapping. -/
def findOpsFuel : Nat → List Char → Bool → List (List Char)
  | 0, _, _ => []
  | fuel + 1, l, leftOk =>
    match l with
    | [] => []
    | c :: t =>
      match opAtHead (c :: t) leftOk with
      | some m => m :: findOpsFuel fuel ((c :: t).drop m.length) false
      | none => findOpsFuel fuel t (!isWordChar c)

/-- Model of `QueryParser._extract_operators`. -/
def extract_operators (query : List Char) : List (List Char) × List Char :=
  let ms := findOpsFuel query.length query true
  (ms.map upperL, stripL (ms.foldl (fun r m => replaceAllL r m [' ']) query))

/-- The dictionary returned by `QueryParser.parse_query`. -/
structure ParsedQuery where
  original_query : List Char
  processed_terms : List (List Char)
  phrases : List (List (List Char))
  operators : List (List Char)
  query_type : List Char
  intent : List Char
  filters : List (List Char × List Char)

/-- Model of `QueryParser.parse_query`, with the indexer's
`TextProcessor.process_text` abstracted as `processText`. -/
def parse_query (processText : List Char → List (List Char)) (raw : List Char) : ParsedQuery :=
  let query_type := detect_query_type raw
  let intent := detect_intent raw
  let (phrases, r1) := extract_phrases processText raw
  let (ops, r2) := extract_operators r1
  { original_query := raw
    processed_terms := processText r2
    phrases := phrases
    operators := ops
    query_type := query_type
    intent := intent
    filters := extract_filters raw }

/-- The concrete query of claim C2. -/
def inputC2 : List Char :=
  "What is the \"best laptop\" site:bestbuy.com under $1000".data

/-- C2 (counterexample): on the claim's input the code classifies the
query as `phrase`, not `question`: the `'"' in query` test fires before
the question tests, exactly per the stated priority order (operators,
quotes, filters, question marks / wh-prefixes). -/
theorem c2_counterexample :
    (parse_query (fun s => [s]) inputC2).query_type = "phrase".data
    ∧ "phrase".data ≠ "question".data := by
  constructor
  · rfl
  · decide

/-- C2 (amended): for the input
`What is the "best laptop" site:bestbuy.com under $1000`, and any text
processor, `parse_query` returns `query_type == "phrase"` (the quotes
outrank the question tests in the stated priority order), together with
`intent == "informational"` and `filters == {"site": "bestbuy.com"}`. -/
theorem c2_parse_query_example :
    ∀ processText : List Char → List (List Char),
      (parse_query processText inputC2).query_type = "phrase".data
      ∧ (parse_query processText inputC2).intent = "informational".data
      ∧ (parse_query processText inputC2).filters
          = [("site".data, "bestbuy.com".data)] :=
  fun _ => ⟨rfl, rfl, rfl⟩

/-! ## `URLFrontier` (src/config/crawler/crawler.py)

The frontier state is generic over the time type `T` (the source uses
`time.time()` floats; any linearly ordered type with `0`, `+`, `-`
models it, and the concrete runs below instantiate `T := ℤ`).  The heap
is modelled as a multiset (a list with minimum extraction, matching
`heapq`), Python dicts as insertion-ordered association lists, the
crawled set as a list queried only through membership, and the Redis
mirror calls are elided (they are never read back by these methods). -/

/-- Association-list lookup (models `dict.get` / `in`). -/
def alookup {α β : Type} [DecidableEq α] : List (α × β) → α → Option β
  | [], _ => none
  | (k, v) :: t, key => if k = key then some v else alookup t key

/-- Association-list assignment: overwrite in place or append
(models `d[k] = v` on an insertion-ordered dict). -/
def aset {α β : Type} [DecidableEq α] : List (α × β) → α → β → List (α × β)
  | [], k, v => [(k, v)]
  | (k', v') :: t, k, v =>
    if k' = k then (k, v) :: t else (k', v') :: aset t k v

/-- `defaultdict(deque)` append: `d[k].append(x)`. -/
def aappend {α β : Type} [DecidableEq α] : List (α × List β) → α → β → List (α × List β)
  | [], k, x => [(k, [x])]
  | (k', xs) :: t, k, x =>
    if k' = k then (k', xs ++ [x]) :: t else (k', xs) :: aappend t k x

/-- `urlparse(url).netloc`, as used for the politeness domain. -/
def netlocOf (url : List Char) : List Char :=
  (urlparseL url).netloc

/-- The state of a `URLFrontier`. -/
structure FrontierState (T : Type) where
  priority_queue : List (Int × T × List Char)
  domain_queues : List (List Char × List (List Char))
  domain_last_access : List (List Char × T)
  crawled_urls : List (List Char)
deriving DecidableEq

/-- Lexicographic order on heap entries, as Python compares the tuples
`(priority, timestamp, url)`. -/
def entryLe {T : Type} [LinearOrder T] (a b : Int × T × List Char) : Bool :=
  decide (a.1 < b.1)
    || (decide (a.1 = b.1)
        && (decide (a.2.1 < b.2.1)
            || (decide (a.2.1 = b.2.1) && lexLe a.2.2 b.2.2)))

/-- Extract the minimal heap entry (models `heapq.heappop`); among equal
entries the leftmost is taken, which is observationally irrelevant since
equal tuples are identical. -/
def popMin {T : Type} [LinearOrder T] :
    List (Int × T × List Char) → Option ((Int × T × List Char) × List (Int × T × List Char))
  | [] => none
  | x :: xs =>
    match popMin xs with
    | none => some (x, [])
    | some (m, rest) => if entryLe x m then some (x, xs) else some (m, x :: rest)

/-- Model of `URLFrontier.add_url` (priority defaults to 1 at call sites);
`now` is the value of `time.time()` during the call. -/
def add_url {T : Type} [LinearOrder T] (now : T) (s : FrontierState T)
    (url : List Char) (priority : Int) : Bool × FrontierState T :=
  if url ∈ s.crawled_urls then (false, s)
  else
    let domain := netlocOf url
    (true,
      { s with
        priority_queue := s.priority_queue ++ [(priority, now, url)]
        domain_queues := aappend s.domain_queues domain url })

/-- Model of `URLFrontier.get_next_url`.  `current_time` is read once at
entry, exactly as in the source.  The `while` loop is unrolled on `fuel`;
the outer `none` means the loop is still running after `fuel` iterations,
`some (none, s)` is the `return None` exit, and `some (some url, s)` the
successful exit. -/
def get_next_url {T : Type} [LinearOrder T] [Zero T] [Add T] [Sub T]
    (current_time delay : T) :
    Nat → FrontierState T → Option (Option (List Char) × FrontierState T)
  | 0, _ => none
  | fuel + 1, s =>
    match popMin s.priority_queue with
    | none => some (none, s)
    | some ((priority, _, url), rest) =>
      let domain := netlocOf url
      let last_access := (alookup s.domain_last_access domain).getD 0
      if current_time - last_access < delay then
        get_next_url current_time delay fuel
          { s with priority_queue := rest ++ [(priority, current_time + delay, url)] }
      else
        some (some url,
          { s with
            priority_queue := rest
            domain_last_access := aset s.domain_last_access domain current_time
            crawled_urls := url :: s.crawled_urls })

/-! ## C1: `get_next_url` loops forever when every queued URL is blocked -/

/-- A frontier holding one URL whose domain was last accessed at the
current instant (`CRAWL_DELAY = 1`): the politeness test always fails. -/
def c1State : FrontierState ℤ :=
  { priority_queue := [(1, 0, "http://a.com/x".data)]
    domain_queues := [("a.com".data, ["http://a.com/x".data])]
    domain_last_access := [("a.com".data, 0)]
    crawled_urls := [] }

/-- The loop's fixpoint state: the deferred entry carries timestamp
`current_time + CRAWL_DELAY = 1` and is popped again unchanged. -/
def c1LoopState : FrontierState ℤ :=
  { c1State with priority_queue := [(1, 1, "http://a.com/x".data)] }

theorem c1_loop_spins (n : Nat) :
    get_next_url (0 : ℤ) 1 n c1LoopState = none := by
  induction n with
  | zero => rfl
  | succ n ih => exact ih

/-- C1 (the code violates the claim): with the queue non-empty and every
queued URL's host accessed less than `CRAWL_DELAY` ago, `get_next_url`
re-pushes the same entry forever — for every `fuel` the loop is still
running — instead of terminating with `None`.  `current_time` is computed
once, so the politeness condition can never change during the call. -/
theorem c1_get_next_url_diverges :
    ∀ fuel : Nat, get_next_url (0 : ℤ) 1 fuel c1State = none := by
  intro fuel
  cases fuel with
  | zero => rfl
  | succ n => exact c1_loop_spins n

/-! ## C5: a URL added twice can be returned twice -/

/-- The URL of the C5 scenario. -/
def c5Url : List Char := "http://a.com/x".data

/-- Frontier after `add_url` is called twice for the same URL (both at
`t = 0`, before the URL was ever crawled): the heap holds two entries. -/
def c5TwoAdds : FrontierState ℤ :=
  (add_url (0 : ℤ) ((add_url (0 : ℤ) ⟨[], [], [], []⟩ c5Url 1).2) c5Url 1).2

/-- State after the first `get_next_url` call at `t = 10`. -/
def c5AfterFirst : FrontierState ℤ :=
  ((get_next_url (10 : ℤ) 1 2 c5TwoAdds).getD (none, c5TwoAdds)).2

/-- C5 (the code violates the claim): after adding the same URL twice,
the first `get_next_url` (at `t = 10`, `CRAWL_DELAY = 1`) returns it and
puts it in the crawled set, yet the second call (at `t = 20`) pops the
second heap entry and returns the same URL again — `get_next_url` never
consults `crawled_urls`. -/
theorem c5_url_returned_twice :
    (get_next_url (10 : ℤ) 1 2 c5TwoAdds).map (fun r => r.1) = some (some c5Url)
    ∧ c5Url ∈ c5AfterFirst.crawled_urls
    ∧ (get_next_url (20 : ℤ) 1 2 c5AfterFirst).map (fun r => r.1) = some (some c5Url) := by
  decide


/-! ## `PageRank` link graph (src/ranker/pagerank.py) -/

/-- `defaultdict(set)` insertion: `d[k].add(v)`. -/
def dAddTo : List (Nat × Finset Nat) → Nat → Nat → List (Nat × Finset Nat)
  | [], k, v => [(k, {v})]
  | (k', s) :: t, k, v =>
    if k' = k then (k', insert v s) :: t else (k', s) :: dAddTo t k v

/-- Read a `defaultdict(set)` without inserting (models `d.get(k, set())`
and plain membership queries). -/
def dGet (l : List (Nat × Finset Nat)) (k : Nat) : Finset Nat :=
  (alookup l k).getD ∅

/-- The state of a `PageRank` object (the parts touched by `add_link`). -/
structure PageRankState where
  graph : List (Nat × Finset Nat)
  reverse_graph : List (Nat × Finset Nat)
  url_to_id : List (List Char × Nat)
  id_to_url : List (Nat × List Char)
  next_id : Nat
deriving DecidableEq

/-- Model of `PageRank._get_or_create_id`. -/
def get_or_create_id (s : PageRankState) (url : List Char) : Nat × PageRankState :=
  match alookup s.url_to_id url with
  | some i => (i, s)
  | none =>
    (s.next_id,
      { s with
        url_to_id := s.url_to_id ++ [(url, s.next_id)]
        id_to_url := s.id_to_url ++ [(s.next_id, url)]
        next_id := s.next_id + 1 })

/-- Model of `PageRank.add_link`: no self-loop check is performed. -/
def add_link (s : PageRankState) (source_url target_url : List Char) : PageRankState :=
  let r1 := get_or_create_id s source_url
  let r2 := get_or_create_id r1.2 target_url
  { r2.2 with
    graph := dAddTo r2.2.graph r1.1 r2.1
    reverse_graph := dAddTo r2.2.reverse_graph r2.1 r1.1 }

/-- The empty `PageRank` object of `__init__`. -/
def initPageRank : PageRankState :=
  ⟨[], [], [], [], 0⟩

/-- Run a sequence of `add_link(source, target)` calls from a fresh object. -/
def run_add_links (calls : List (List Char × List Char)) : PageRankState :=
  calls.foldl (fun s c => add_link s c.1 c.2) initPageRank

theorem get_or_create_id_graph (s : PageRankState) (u : List Char) :
    (get_or_create_id s u).2.graph = s.graph := by
  unfold get_or_create_id
  cases alookup s.url_to_id u <;> rfl

theorem get_or_create_id_reverse_graph (s : PageRankState) (u : List Char) :
    (get_or_create_id s u).2.reverse_graph = s.reverse_graph := by
  unfold get_or_create_id
  cases alookup s.url_to_id u <;> rfl

theorem dGet_cons_eq (k : Nat) (s : Finset Nat) (tl : List (Nat × Finset Nat)) :
    dGet ((k, s) :: tl) k = s := by
  simp [dGet, alookup]

theorem dGet_cons_ne (k : Nat) (s : Finset Nat) (tl : List (Nat × Finset Nat))
    (u : Nat) (h : k ≠ u) : dGet ((k, s) :: tl) u = dGet tl u := by
  simp [dGet, alookup, h]

theorem mem_dGet_dAddTo (l : List (Nat × Finset Nat)) (k x u v : Nat) :
    v ∈ dGet (dAddTo l k x) u ↔ (u = k ∧ v = x) ∨ v ∈ dGet l u := by
  induction l with
  | nil =>
    simp only [dAddTo]
    by_cases h : k = u
    · subst h
      simp [dGet, alookup]
    · simp [dGet, alookup, h]
      exact fun hh _ => h hh.symm
  | cons hd tl ih =>
    obtain ⟨k', s⟩ := hd
    simp only [dAddTo]
    by_cases hk : k' = k
    · subst hk
      rw [if_pos rfl]
      by_cases hu : k' = u
      · subst hu
        simp [dGet, alookup]
      · rw [dGet_cons_ne _ _ _ _ hu, dGet_cons_ne _ _ _ _ hu]
        simp [Ne.symm hu]
    · simp only [if_neg hk]
      by_cases hu : k' = u
      · subst hu
        simp [dGet_cons_eq, hk]
      · rw [dGet_cons_ne _ _ _ _ hu, dGet_cons_ne _ _ _ _ hu]
        exact ih

/-- The symmetric-edge invariant: every stored out-edge `(u,v)` has its
in-edge in the reverse adjacency, and conversely. -/
def EdgeSym (s : PageRankState) : Prop :=
  ∀ u v, v ∈ dGet s.graph u ↔ u ∈ dGet s.reverse_graph v

theorem edgeSym_add_link (s : PageRankState) (a b : List Char) (h : EdgeSym s) :
    EdgeSym (add_link s a b) := by
  intro u v
  have hg : (add_link s a b).graph
      = dAddTo s.graph (get_or_create_id s a).1
          (get_or_create_id (get_or_create_id s a).2 b).1 := by
    simp [add_link, get_or_create_id_graph]
  have hr : (add_link s a b).reverse_graph
      = dAddTo s.reverse_graph
          (get_or_create_id (get_or_create_id s a).2 b).1 (get_or_create_id s a).1 := by
    simp [add_link, get_or_create_id_reverse_graph]
  rw [hg, hr, mem_dGet_dAddTo, mem_dGet_dAddTo, h u v]
  tauto

theorem edgeSym_run (calls : List (List Char × List Char)) :
    EdgeSym (run_add_links calls) := by
  have base : EdgeSym initPageRank := by
    intro u v
    simp [initPageRank, dGet, alookup]
  have step : ∀ (s : PageRankState), EdgeSym s →
      ∀ rest : List (List Char × List Char),
        EdgeSym (rest.foldl (fun s c => add_link s c.1 c.2) s) := by
    intro s hs rest
    induction rest generalizing s with
    | nil => exact hs
    | cons c cs ih => exact ih _ (edgeSym_add_link s c.1 c.2 hs)
  exact step initPageRank base calls

/-- C6 (counterexample): `add_link("a", "a")` stores the self-loop
`(0, 0)` — nothing in `add_link` discards a call with source equal to
target. -/
theorem c6_counterexample :
    0 ∈ dGet (run_add_links [("a".data, "a".data)]).graph 0 := by
  decide

/-- C6 (amended): after every sequence of `add_link` calls the out-edge
and in-edge adjacencies are symmetric — `v ∈ graph[u]` iff
`u ∈ reverse_graph[v]` — but self-loops are stored, not discarded: a call
with source equal to target adds the edge `(id, id)`. -/
theorem c6_add_link_symmetric :
    (∀ calls : List (List Char × List Char), EdgeSym (run_add_links calls))
    ∧ 0 ∈ dGet (run_add_links [("a".data, "a".data)]).graph 0
      ∧ 0 ∈ dGet (run_add_links [("a".data, "a".data)]).reverse_graph 0 :=
  ⟨edgeSym_run, by decide, by decide⟩

/-! ## C9: PageRank power iteration preserves total mass (exact arithmetic) -/

/-- Model of `PageRank._build_transition_matrix` over `ℚ`: column `s`
holds `1/|out(s)|` at each stored target, and `1/n` everywhere when the
source is dangling. -/
def build_transition_matrix (g : List (Nat × Finset Nat)) (n : ℕ) :
    Fin n → Fin n → ℚ :=
  fun t s =>
    let out := dGet g s.val
    if out.Nonempty then (if t.val ∈ out then 1 / (out.card : ℚ) else 0)
    else 1 / (n : ℚ)

/-- Model of `PageRank._pagerank_iteration` over `ℚ` with damping `d`
(the source default is `d = 0.85`). -/
def pagerank_iteration (d : ℚ) (n : ℕ) (M : Fin n → Fin n → ℚ)
    (scores : Fin n → ℚ) : Fin n → ℚ :=
  fun i => d * (∑ j, M i j * scores j) + (1 - d) / (n : ℚ)

/-- The score vector after `k` power iterations of `calculate_pagerank`,
starting from the uniform vector `np.ones(n) / n` (the convergence break
only shortens the iteration count and is elided). -/
def pagerank_scores (d : ℚ) (g : List (Nat × Finset Nat)) (n : ℕ) :
    Nat → Fin n → ℚ
  | 0 => fun _ => 1 / (n : ℚ)
  | k + 1 =>
    pagerank_iteration d n (build_transition_matrix g n) (pagerank_scores d g n k)

theorem transition_matrix_col_sum (g : List (Nat × Finset Nat)) (n : ℕ)
    (hn : 0 < n) (hb : ∀ s a, a ∈ dGet g s → a < n) (s : Fin n) :
    ∑ t, build_transition_matrix g n t s = 1 := by
  unfold build_transition_matrix
  by_cases h : (dGet g s.val).Nonempty
  · simp only [h, if_true]
    rw [Finset.sum_ite, Finset.sum_const, Finset.sum_const_zero, add_zero]
    have hcard : (Finset.univ.filter (fun t : Fin n => t.val ∈ dGet g s.val)).card
        = (dGet g s.val).card := by
      apply Finset.card_bij (fun t _ => t.val)
      · intro a ha
        exact (Finset.mem_filter.mp ha).2
      · intro a _ b _ hab
        exact Fin.val_injective hab
      · intro b hbmem
        exact ⟨⟨b, hb s.val b hbmem⟩, Finset.mem_filter.mpr ⟨Finset.mem_univ _, hbmem⟩, rfl⟩
    rw [hcard]
    have hc : ((dGet g s.val).card : ℚ) ≠ 0 := by
      exact_mod_cast Finset.card_ne_zero_of_mem h.choose_spec
    field_simp
  · simp only [h, if_false]
    rw [Finset.sum_const, Finset.card_univ, Fintype.card_fin]
    have : (n : ℚ) ≠ 0 := by exact_mod_cast hn.ne'
    field_simp

/-- C9: in exact rational arithmetic, one damped power iteration
(`s' = 0.85·M·s + 0.15/n`, dangling columns filled with `1/n`) maps a
score vector summing to 1 to a vector summing to 1; consequently every
iterate starting from the uniform vector sums to 1.  The hypothesis
`hb` states that stored targets are valid page ids, which holds for every
graph built by `add_link` with `n` the number of pages. -/
theorem c9_pagerank_mass (g : List (Nat × Finset Nat)) (n : ℕ) (hn : 0 < n)
    (hb : ∀ s a, a ∈ dGet g s → a < n) :
    (∀ scores : Fin n → ℚ, ∑ i, scores i = 1 →
      ∑ i, pagerank_iteration (85/100) n (build_transition_matrix g n) scores i = 1)
    ∧ ∀ k : Nat, ∑ i, pagerank_scores (85/100) g n k i = 1 := by
  have hq : (n : ℚ) ≠ 0 := by exact_mod_cast hn.ne'
  have key : ∀ scores : Fin n → ℚ, ∑ i, scores i = 1 →
      ∑ i, pagerank_iteration (85/100) n (build_transition_matrix g n) scores i = 1 := by
    intro scores hsum
    unfold pagerank_iteration
    rw [Finset.sum_add_distrib]
    have h1 : ∑ i : Fin n, (85/100 : ℚ) * (∑ j, build_transition_matrix g n i j * scores j)
        = 85/100 := by
      rw [← Finset.mul_sum, Finset.sum_comm]
      have hcol : ∀ j : Fin n,
          (∑ i : Fin n, build_transition_matrix g n i j * scores j) = scores j := by
        intro j
        rw [← Finset.sum_mul, transition_matrix_col_sum g n hn hb j, one_mul]
      rw [Finset.sum_congr rfl (fun j _ => hcol j), hsum, mul_one]
    have h2 : ∑ _i : Fin n, (1 - (85/100 : ℚ)) / (n : ℚ) = 1 - 85/100 := by
      rw [Finset.sum_const, Finset.card_univ, Fintype.card_fin, nsmul_eq_mul]
      field_simp
      ring
    rw [h1, h2]
    norm_num
  refine ⟨key, fun k => ?_⟩
  induction k with
  | zero =>
    simp only [pagerank_scores]
    rw [Finset.sum_const, Finset.card_univ, Fintype.card_fin, nsmul_eq_mul]
    field_simp
  | succ k ih => exact key _ ih

theorem c9ExampleBound : ∀ s a, a ∈ dGet [(0, ({1} : Finset Nat))] s → a < 2 := by
  intro s a ha
  by_cases h : (0 : ℕ) = s
  · subst h
    simp [dGet, alookup] at ha
    omega
  · rw [dGet_cons_ne _ _ _ _ h] at ha
    simp [dGet, alookup] at ha

/-- C9 (witness): the two-page graph `0 → 1` (page 1 dangling) satisfies
the hypotheses, and all its iterates sum to 1. -/
theorem c9_pagerank_mass_witness :
    (0 < 2 ∧ ∀ s a, a ∈ dGet [(0, ({1} : Finset Nat))] s → a < 2)
    ∧ ∀ k : Nat, ∑ i, pagerank_scores (85/100) [(0, ({1} : Finset Nat))] 2 k i = 1 :=
  ⟨⟨by decide, c9ExampleBound⟩,
    (c9_pagerank_mass [(0, ({1} : Finset Nat))] 2 (by decide) c9ExampleBound).2⟩

/-! ## `InvertedIndex` (src/config/crawler/inverted_index.py) -/

/-- `defaultdict(int)` increment: `d[k] += 1`. -/
def aincr {α : Type} [DecidableEq α] : List (α × Nat) → α → List (α × Nat)
  | [], k => [(k, 1)]
  | (k', n) :: t, k =>
    if k' = k then (k', n + 1) :: t else (k', n) :: aincr t k

/-- The state of an `InvertedIndex`: `index` maps a term to its posting
list of `(doc_id, term_frequency, positions)`. -/
structure InvertedIndex where
  index : List (List Char × List (List Char × Nat × List Nat))
  document_freq : List (List Char × Nat)
  total_docs : Nat
  doc_lengths : List (List Char × Nat)
deriving DecidableEq

/-- The freshly constructed index of `__init__`. -/
def initIndex : InvertedIndex :=
  ⟨[], [], 0, []⟩

/-- Accumulate one token occurrence into the per-document term table
(frequency and position list). -/
def updTok : List (List Char × Nat × List Nat) → List Char → Nat → List (List Char × Nat × List Nat)
  | [], tok, pos => [(tok, 1, [pos])]
  | (t, f, ps) :: r, tok, pos =>
    if t = tok then (t, f + 1, ps ++ [pos]) :: r
    else (t, f, ps) :: updTok r tok pos

/-- The `term_freq` / `term_positions` tables of `add_document`, keyed in
first-occurrence order; tokens shorter than 2 characters are ignored. -/
def term_freqs (tokens : List (List Char)) : List (List Char × Nat × List Nat) :=
  tokens.enum.foldl
    (fun acc e => if 2 ≤ e.2.length then updTok acc e.2 e.1 else acc) []

/-- Model of `InvertedIndex.add_document`.  The `document_freq` update
iterates over `set(term_freq.keys())`, whose order is unspecified in
Python; it is modelled in first-occurrence order, which yields the same
counts. -/
def add_document (s : InvertedIndex) (doc_id : List Char) (tokens : List (List Char)) :
    InvertedIndex :=
  if (alookup s.doc_lengths doc_id).isSome then s
  else
    { index := (term_freqs tokens).foldl
        (fun ix e => aappend ix e.1 (doc_id, e.2.1, e.2.2)) s.index
      document_freq := (term_freqs tokens).foldl (fun df e => aincr df e.1) s.document_freq
      total_docs := s.total_docs + 1
      doc_lengths := s.doc_lengths ++ [(doc_id, tokens.length)] }

/-- Model of `InvertedIndex.get_document_frequency`. -/
def get_document_frequency (s : InvertedIndex) (term : List Char) : Nat :=
  (alookup s.document_freq term).getD 0

/-- The posting list `index[term]` (empty when the term is absent, as in
`search`). -/
def postingsOf (s : InvertedIndex) (term : List Char) : List (List Char × Nat × List Nat) :=
  (alookup s.index term).getD []

/-- Model of `InvertedIndex.get_term_frequency`: first matching posting. -/
def get_term_frequency (s : InvertedIndex) (term doc_id : List Char) : Nat :=
  match (postingsOf s term).find? (fun p => decide (p.1 = doc_id)) with
  | some p => p.2.1
  | none => 0

/-- Model of `InvertedIndex.get_document_length`. -/
def get_document_length (s : InvertedIndex) (doc_id : List Char) : Nat :=
  (alookup s.doc_lengths doc_id).getD 0

/-- Python division, which raises `ZeroDivisionError` on a zero
denominator: modelled as `none` (exact rational arithmetic otherwise). -/
def pyDiv (a b : ℚ) : Option ℚ :=
  if b = 0 then none else some (a / b)

/-- The dictionary returned by `InvertedIndex.get_stats`. -/
structure IndexStats where
  total_documents : Nat
  unique_terms : Nat
  total_postings : Nat
  average_doc_length : Option ℚ
deriving DecidableEq

/-- Model of `InvertedIndex.get_stats`: the average divides only under
the `if self.doc_lengths` guard and yields `0` otherwise. -/
def get_stats (s : InvertedIndex) : IndexStats :=
  { total_documents := s.total_docs
    unique_terms := s.index.length
    total_postings := (s.index.map (fun e => e.2.length)).sum
    average_doc_length :=
      if s.doc_lengths.isEmpty then some 0
      else pyDiv ((s.doc_lengths.map (fun e => (e.2 : ℚ))).sum) (s.doc_lengths.length : ℚ) }

/-- Run a sequence of `add_document(doc_id, tokens)` calls from a fresh
index. -/
def run_add_documents (calls : List (List Char × List (List Char))) : InvertedIndex :=
  calls.foldl (fun s c => add_document s c.1 c.2) initIndex

theorem isSome_alookup_append {β : Type} (l : List (List Char × β)) (k : List Char) (v : β) :
    (alookup (l ++ [(k, v)]) k).isSome := by
  induction l with
  | nil => simp [alookup]
  | cons hd tl ih =>
    obtain ⟨k', v'⟩ := hd
    by_cases h : k' = k <;> simp [alookup, h, ih]

theorem add_document_registers (s : InvertedIndex) (d : List Char)
    (toks : List (List Char)) :
    (alookup (add_document s d toks).doc_lengths d).isSome := by
  unfold add_document
  by_cases h : (alookup s.doc_lengths d).isSome
  · rw [if_pos h]
    exact h
  · rw [if_neg h]
    exact isSome_alookup_append s.doc_lengths d toks.length

/-- C7: `add_document` is idempotent on `doc_id` — a second call with the
same `doc_id` (any token list) hits the `doc_id in self.doc_lengths`
guard and leaves the entire index state unchanged. -/
theorem c7_add_document_idempotent :
    ∀ (s : InvertedIndex) (d : List Char) (toks toks2 : List (List Char)),
      add_document (add_document s d toks) d toks2 = add_document s d toks := by
  intro s d toks toks2
  conv_lhs => rw [add_document]
  rw [if_pos (add_document_registers s d toks)]

/-- C10: `get_stats` never divides by zero — for an index with no
recorded document lengths it returns `average_doc_length = 0` through the
`if self.doc_lengths` guard, and otherwise the denominator is positive. -/
theorem c10_get_stats_average_safe :
    ∀ s : InvertedIndex,
      (get_stats s).average_doc_length ≠ none
      ∧ (s.doc_lengths = [] → (get_stats s).average_doc_length = some 0) := by
  intro s
  constructor
  · cases hd : s.doc_lengths with
    | nil => simp [get_stats, hd]
    | cons a t =>
      have hlen : ((t.length : ℚ) + 1) ≠ 0 := by positivity
      simp [get_stats, hd, pyDiv, hlen]
  · intro h
    simp [get_stats, h]

/-- C10 (witness): the freshly constructed empty index. -/
theorem c10_get_stats_average_safe_witness :
    (get_stats initIndex).average_doc_length = some 0 :=
  (c10_get_stats_average_safe initIndex).2 rfl

/-! ## C8: `document_frequency[t] = |index[t]|`, postings have distinct docs -/

theorem alookup_eq_none {α β : Type} [DecidableEq α] (l : List (α × β)) (k : α)
    (h : k ∉ l.map (fun e => e.1)) : alookup l k = none := by
  induction l with
  | nil => rfl
  | cons hd tl ih =>
    obtain ⟨k', v⟩ := hd
    simp only [List.map_cons, List.mem_cons] at h
    push_neg at h
    by_cases hk : k' = k
    · exact absurd hk.symm h.1
    · simp [alookup, hk, ih h.2]

theorem alookup_append_of_isSome {α β : Type} [DecidableEq α]
    (l l2 : List (α × β)) (k : α) (h : (alookup l k).isSome) :
    alookup (l ++ l2) k = alookup l k := by
  induction l with
  | nil => simp [alookup] at h
  | cons hd tl ih =>
    obtain ⟨k', v⟩ := hd
    by_cases hk : k' = k
    · simp [alookup, hk]
    · simp only [alookup, if_neg hk] at h ⊢
      exact ih h

theorem aappend_get_self {α β : Type} [DecidableEq α]
    (l : List (α × List β)) (k : α) (x : β) :
    (alookup (aappend l k x) k).getD [] = (alookup l k).getD [] ++ [x] := by
  induction l with
  | nil => simp [aappend, alookup]
  | cons hd tl ih =>
    obtain ⟨k', xs⟩ := hd
    by_cases h : k' = k
    · subst h
      simp [aappend, alookup]
    · simp [aappend, alookup, h, ih]

theorem aappend_get_ne {α β : Type} [DecidableEq α]
    (l : List (α × List β)) (k t : α) (x : β) (h : k ≠ t) :
    alookup (aappend l k x) t = alookup l t := by
  induction l with
  | nil => simp [aappend, alookup, h]
  | cons hd tl ih =>
    obtain ⟨k', xs⟩ := hd
    by_cases hk : k' = k
    · subst hk
      simp [aappend, alookup, h, ih]
    · by_cases ht : k' = t
      · simp [aappend, alookup, hk, ht, Ne.symm h]
      · simp [aappend, alookup, hk, ht, ih]

theorem aincr_get_self {α : Type} [DecidableEq α] (l : List (α × Nat)) (k : α) :
    (alookup (aincr l k) k).getD 0 = (alookup l k).getD 0 + 1 := by
  induction l with
  | nil => simp [aincr, alookup]
  | cons hd tl ih =>
    obtain ⟨k', n⟩ := hd
    by_cases h : k' = k
    · subst h
      simp [aincr, alookup]
    · simp [aincr, alookup, h, ih]

theorem aincr_get_ne {α : Type} [DecidableEq α] (l : List (α × Nat)) (k t : α)
    (h : k ≠ t) : alookup (aincr l k) t = alookup l t := by
  induction l with
  | nil => simp [aincr, alookup, h]
  | cons hd tl ih =>
    obtain ⟨k', n⟩ := hd
    by_cases hk : k' = k
    · subst hk
      simp [aincr, alookup, h, ih]
    · by_cases ht : k' = t
      · simp [aincr, alookup, hk, ht, Ne.symm h]
      · simp [aincr, alookup, hk, ht, ih]

theorem updTok_fst (l : List (List Char × Nat × List Nat)) (tok : List Char) (pos : Nat) :
    (updTok l tok pos).map (fun e => e.1)
      = if tok ∈ l.map (fun e => e.1) then l.map (fun e => e.1)
        else l.map (fun e => e.1) ++ [tok] := by
  induction l with
  | nil => simp [updTok]
  | cons hd tl ih =>
    obtain ⟨t, f, ps⟩ := hd
    by_cases h : t = tok
    · subst h
      simp [updTok]
    · by_cases hm : tok ∈ tl.map (fun e => e.1)
      · simp [updTok, h, Ne.symm h, hm, ih]
      · simp [updTok, h, Ne.symm h, hm, ih]

theorem keys_nodup_foldl_updTok :
    ∀ (l : List (Nat × List Char)) (acc : List (List Char × Nat × List Nat)),
      (acc.map (fun e => e.1)).Nodup →
      ((l.foldl (fun acc e => if 2 ≤ e.2.length then updTok acc e.2 e.1 else acc) acc).map
        (fun e => e.1)).Nodup := by
  intro l
  induction l with
  | nil => exact fun acc h => h
  | cons e r ih =>
    intro acc h
    simp only [List.foldl_cons]
    apply ih
    by_cases hc : 2 ≤ e.2.length
    · rw [if_pos hc, updTok_fst]
      by_cases hm : e.2 ∈ acc.map (fun x => x.1)
      · simpa [hm] using h
      · simp [hm, List.nodup_append, h]
    · rwa [if_neg hc]

theorem term_freqs_keys_nodup (tokens : List (List Char)) :
    ((term_freqs tokens).map (fun e => e.1)).Nodup :=
  keys_nodup_foldl_updTok tokens.enum [] (by simp)

theorem pGet_foldl_aappend (d : List Char) :
    ∀ (tf : List (List Char × Nat × List Nat)),
      ((tf.map (fun e => e.1)).Nodup) →
      ∀ (ix : List (List Char × List (List Char × Nat × List Nat))) (t : List Char),
        (alookup (tf.foldl (fun ix e => aappend ix e.1 (d, e.2.1, e.2.2)) ix) t).getD []
          = match alookup tf t with
            | some v => (alookup ix t).getD [] ++ [(d, v.1, v.2)]
            | none => (alookup ix t).getD [] := by
  intro tf
  induction tf with
  | nil =>
    intro _ ix t
    simp [alookup]
  | cons e r ih =>
    intro hnd ix t
    obtain ⟨k, fv⟩ := e
    simp only [List.map_cons, List.nodup_cons] at hnd
    obtain ⟨hk, hnd'⟩ := hnd
    simp only [List.foldl_cons]
    by_cases ht : k = t
    · subst ht
      rw [ih hnd' (aappend ix k (d, fv.1, fv.2)) k, alookup_eq_none r k hk,
        aappend_get_self]
      simp [alookup]
    · rw [ih hnd' (aappend ix k (d, fv.1, fv.2)) t]
      cases hr : alookup r t with
      | none => simp [alookup, ht, hr, aappend_get_ne _ _ _ _ ht]
      | some v => simp [alookup, ht, hr, aappend_get_ne _ _ _ _ ht]

theorem dfGet_foldl_aincr :
    ∀ (tf : List (List Char × Nat × List Nat)),
      ((tf.map (fun e => e.1)).Nodup) →
      ∀ (df : List (List Char × Nat)) (t : List Char),
        (alookup (tf.foldl (fun df e => aincr df e.1) df) t).getD 0
          = match alookup tf t with
            | some _ => (alookup df t).getD 0 + 1
            | none => (alookup df t).getD 0 := by
  intro tf
  induction tf with
  | nil =>
    intro _ df t
    simp [alookup]
  | cons e r ih =>
    intro hnd df t
    obtain ⟨k, fv⟩ := e
    simp only [List.map_cons, List.nodup_cons] at hnd
    obtain ⟨hk, hnd'⟩ := hnd
    simp only [List.foldl_cons]
    by_cases ht : k = t
    · subst ht
      rw [ih hnd' (aincr df k) k, alookup_eq_none r k hk, aincr_get_self]
      simp [alookup]
    · rw [ih hnd' (aincr df k) t]
      cases hr : alookup r t with
      | none => simp [alookup, ht, hr, aincr_get_ne _ _ _ ht]
      | some v => simp [alookup, ht, hr, aincr_get_ne _ _ _ ht]

/-- The strengthened index invariant: counts match posting lengths, the
doc ids of every posting list are distinct, and every posted doc id has a
recorded length. -/
def IndexInv (s : InvertedIndex) : Prop :=
  ∀ t, get_document_frequency s t = (postingsOf s t).length
    ∧ ((postingsOf s t).map (fun p => p.1)).Nodup
    ∧ ∀ p ∈ postingsOf s t, (alookup s.doc_lengths p.1).isSome

theorem indexInv_init : IndexInv initIndex := by
  intro t
  refine ⟨rfl, by simp [postingsOf, initIndex, alookup], ?_⟩
  intro p hp
  simp [postingsOf, initIndex, alookup] at hp

theorem indexInv_add (s : InvertedIndex) (d : List Char) (toks : List (List Char))
    (h : IndexInv s) : IndexInv (add_document s d toks) := by
  by_cases hg : (alookup s.doc_lengths d).isSome
  · unfold add_document
    rw [if_pos hg]
    exact h
  · unfold add_document
    rw [if_neg hg]
    intro t
    have hnd := term_freqs_keys_nodup toks
    have hpost0 := pGet_foldl_aappend d (term_freqs toks) hnd s.index t
    have hdf0 := dfGet_foldl_aincr (term_freqs toks) hnd s.document_freq t
    obtain ⟨h1, h2, h3⟩ := h t
    have hdnotold : ∀ p ∈ postingsOf s t, p.1 ≠ d := by
      intro p hp hpd
      exact hg (hpd ▸ h3 p hp)
    cases halt : alookup (term_freqs toks) t with
    | none =>
      have hpostE :
          (alookup ((term_freqs toks).foldl
            (fun ix e => aappend ix e.1 (d, e.2.1, e.2.2)) s.index) t).getD []
            = postingsOf s t := by
        rw [hpost0, halt]
        rfl
      have hdfE :
          (alookup ((term_freqs toks).foldl (fun df e => aincr df e.1)
            s.document_freq) t).getD 0
            = get_document_frequency s t := by
        rw [hdf0, halt]
        rfl
      refine ⟨?_, ?_, ?_⟩
      · show (alookup ((term_freqs toks).foldl (fun df e => aincr df e.1)
            s.document_freq) t).getD 0
          = ((alookup ((term_freqs toks).foldl
              (fun ix e => aappend ix e.1 (d, e.2.1, e.2.2)) s.index) t).getD []).length
        rw [hdfE, hpostE, h1]
      · show (((alookup ((term_freqs toks).foldl
            (fun ix e => aappend ix e.1 (d, e.2.1, e.2.2)) s.index) t).getD []).map
              (fun p => p.1)).Nodup
        rw [hpostE]
        exact h2
      · intro p hp
        show (alookup (s.doc_lengths ++ [(d, toks.length)]) p.1).isSome
        replace hp : p ∈ postingsOf s t := hpostE ▸ hp
        rw [alookup_append_of_isSome _ _ _ (h3 p hp)]
        exact h3 p hp
    | some v =>
      have hpostE :
          (alookup ((term_freqs toks).foldl
            (fun ix e => aappend ix e.1 (d, e.2.1, e.2.2)) s.index) t).getD []
            = postingsOf s t ++ [(d, v.1, v.2)] := by
        rw [hpost0, halt]
        rfl
      have hdfE :
          (alookup ((term_freqs toks).foldl (fun df e => aincr df e.1)
            s.document_freq) t).getD 0
            = get_document_frequency s t + 1 := by
        rw [hdf0, halt]
        rfl
      refine ⟨?_, ?_, ?_⟩
      · show (alookup ((term_freqs toks).foldl (fun df e => aincr df e.1)
            s.document_freq) t).getD 0
          = ((alookup ((term_freqs toks).foldl
              (fun ix e => aappend ix e.1 (d, e.2.1, e.2.2)) s.index) t).getD []).length
        rw [hdfE, hpostE, h1]
        simp
      · show (((alookup ((term_freqs toks).foldl
            (fun ix e => aappend ix e.1 (d, e.2.1, e.2.2)) s.index) t).getD []).map
              (fun p => p.1)).Nodup
        rw [hpostE]
        simp only [List.map_append, List.map_cons, List.map_nil]
        rw [List.nodup_append]
        refine ⟨h2, List.nodup_singleton d, ?_⟩
        intro a ha hb
        simp only [List.mem_singleton] at hb
        subst hb
        obtain ⟨p, hp, hpd⟩ := List.mem_map.mp ha
        exact hdnotold p hp hpd
      · intro p hp
        show (alookup (s.doc_lengths ++ [(d, toks.length)]) p.1).isSome
        replace hp : p ∈ postingsOf s t ++ [(d, v.1, v.2)] := hpostE ▸ hp
        rcases List.mem_append.mp hp with hpo | hpn
        · rw [alookup_append_of_isSome _ _ _ (h3 p hpo)]
          exact h3 p hpo
        · simp only [List.mem_singleton] at hpn
          subst hpn
          exact isSome_alookup_append s.doc_lengths d toks.length

theorem indexInv_run (calls : List (List Char × List (List Char))) :
    IndexInv (run_add_documents calls) := by
  have step : ∀ (s : InvertedIndex), IndexInv s →
      ∀ rest : List (List Char × List (List Char)),
        IndexInv (rest.foldl (fun s c => add_document s c.1 c.2) s) := by
    intro s hs rest
    induction rest generalizing s with
    | nil => exact hs
    | cons c cs ih => exact ih _ (indexInv_add s c.1 c.2 hs)
  exact step initIndex indexInv_init calls

/-- C8: after every sequence of `add_document` calls, for every term `t`
the stored document frequency equals the length of the posting list
`index[t]`, whose doc ids are pairwise distinct (so the length is also
the number of distinct doc ids). -/
theorem c8_document_frequency_matches_postings :
    ∀ (calls : List (List Char × List (List Char))) (t : List Char),
      get_document_frequency (run_add_documents calls) t
          = (postingsOf (run_add_documents calls) t).length
      ∧ ((postingsOf (run_add_documents calls) t).map (fun p => p.1)).Nodup := by
  intro calls t
  exact ⟨(indexInv_run calls t).1, (indexInv_run calls t).2.1⟩

/-! ## `TFIDFScorer` (src/config/crawler/ranker/tf_idf.py)

The source computes float scores with `math.log`.  The scorer is embedded
over an arbitrary linear ordered field `K` with the logarithm abstracted
as `lg`; the theorems instantiate `K := ℝ` and `lg := Real.log`. -/

instance tieRelDecidable {K : Type} [LinearOrder K] :
    DecidableRel (fun a b : List Char × K => b.2 ≤ a.2) :=
  fun a b => inferInstanceAs (Decidable (b.2 ≤ a.2))

/-- Model of `TFIDFScorer.calculate_tf` with the default
`log_normalized` method (used by `calculate_tfidf`): `1 + log(tf)` for
positive `tf`, else `0`.  `doc_length` is only read by other methods. -/
def calculate_tf {K : Type} [LinearOrderedField K] (lg : K → K)
    (term_freq : Nat) (doc_length : Nat) : K :=
  if 0 < term_freq then 1 + lg (term_freq : K) else 0

/-- Model of `TFIDFScorer.calculate_idf`: `log(total_docs / doc_freq)`,
and `0` for an unseen term. -/
def calculate_idf {K : Type} [LinearOrderedField K] (lg : K → K)
    (s : InvertedIndex) (term : List Char) : K :=
  if get_document_frequency s term = 0 then 0
  else lg ((s.total_docs : K) / (get_document_frequency s term : K))

/-- Model of `TFIDFScorer.calculate_tfidf`. -/
def calculate_tfidf {K : Type} [LinearOrderedField K] (lg : K → K)
    (s : InvertedIndex) (term doc_id : List Char) : K :=
  if get_term_frequency s term doc_id = 0 then 0
  else
    calculate_tf lg (get_term_frequency s term doc_id) (get_document_length s doc_id)
      * calculate_idf lg s term

/-- Model of `TFIDFScorer.score_document`: the summed `tf-idf` scores
normalised by the query length (0 for an empty query). -/
def score_document {K : Type} [LinearOrderedField K] (lg : K → K)
    (s : InvertedIndex) (query_terms : List (List Char)) (doc_id : List Char) : K :=
  if query_terms.isEmpty then 0
  else ((query_terms.map (fun t => calculate_tfidf lg s t doc_id)).sum)
    / (query_terms.length : K)

/-- Model of `TFIDFScorer.score_documents`: keep candidates with strictly
positive score, in candidate order, then `sorted(..., key=score,
reverse=True)` — a stable sort on the score alone, modelled by insertion
sort with ties keeping the earlier element first. -/
def score_documents {K : Type} [LinearOrderedField K] (lg : K → K)
    (s : InvertedIndex) (query_terms candidate_docs : List (List Char)) :
    List (List Char × K) :=
  List.insertionSort (fun a b => b.2 ≤ a.2)
    (candidate_docs.filterMap (fun d =>
      if 0 < score_document lg s query_terms d
      then some (d, score_document lg s query_terms d) else none))

/-- C4 (amended): `score_documents` returns its pairs in descending score
order with ties keeping the candidate-list order (Python's stable sort) —
not re-ordered by doc id — and every document whose score is not strictly
positive is dropped; the output is a permutation of the positive-scored
candidates. -/
theorem c4_score_documents_sorted {K : Type} [LinearOrderedField K] (lg : K → K)
    (s : InvertedIndex) (query_terms candidate_docs : List (List Char)) :
    (score_documents lg s query_terms candidate_docs).Sorted (fun a b => b.2 ≤ a.2)
    ∧ (∀ p ∈ score_documents lg s query_terms candidate_docs, 0 < p.2)
    ∧ (score_documents lg s query_terms candidate_docs).Perm
        (candidate_docs.filterMap (fun d =>
          if 0 < score_document lg s query_terms d
          then some (d, score_document lg s query_terms d) else none)) := by
  haveI ht : IsTotal (List Char × K) (fun a b => b.2 ≤ a.2) :=
    ⟨fun a b => le_total b.2 a.2⟩
  haveI htr : IsTrans (List Char × K) (fun a b => b.2 ≤ a.2) :=
    ⟨fun _ _ _ hab hbc => le_trans hbc hab⟩
  refine ⟨List.sorted_insertionSort _ _, ?_, List.perm_insertionSort _ _⟩
  intro p hp
  have hp' := (List.perm_insertionSort (fun a b : List Char × K => b.2 ≤ a.2) _).mem_iff.mp hp
  obtain ⟨d, _, hd⟩ := List.mem_filterMap.mp hp'
  by_cases hpos : 0 < score_document lg s query_terms d
  · rw [if_pos hpos] at hd
    cases hd
    exact hpos
  · rw [if_neg hpos] at hd
    cases hd

/-- The three-document index of the C4 counterexample: docs `a` and `b`
both contain only the term `xx`, doc `c` only `yy`. -/
def c4Index : InvertedIndex :=
  run_add_documents
    [("a".data, ["xx".data]), ("b".data, ["xx".data]), ("c".data, ["yy".data])]

theorem c4_score_b :
    score_document Real.log c4Index ["xx".data] "b".data = Real.log ((3 : ℝ) / 2) := by
  have htf : get_term_frequency c4Index "xx".data "b".data = 1 := by decide
  have hdl : get_document_length c4Index "b".data = 1 := by decide
  have hdf : get_document_frequency c4Index "xx".data = 2 := by decide
  have htd : c4Index.total_docs = 3 := by decide
  simp [score_document, calculate_tfidf, calculate_tf, calculate_idf, htf, hdl, hdf, htd,
    Real.log_one]

theorem c4_score_a :
    score_document Real.log c4Index ["xx".data] "a".data = Real.log ((3 : ℝ) / 2) := by
  have htf : get_term_frequency c4Index "xx".data "a".data = 1 := by decide
  have hdl : get_document_length c4Index "a".data = 1 := by decide
  have hdf : get_document_frequency c4Index "xx".data = 2 := by decide
  have htd : c4Index.total_docs = 3 := by decide
  simp [score_document, calculate_tfidf, calculate_tf, calculate_idf, htf, hdl, hdf, htd,
    Real.log_one]

theorem c4_out :
    score_documents Real.log c4Index ["xx".data] ["b".data, "a".data]
      = [("b".data, Real.log ((3 : ℝ) / 2)), ("a".data, Real.log ((3 : ℝ) / 2))] := by
  have hpos : (0 : ℝ) < Real.log ((3 : ℝ) / 2) := Real.log_pos (by norm_num)
  simp only [score_documents, List.filterMap_cons, List.filterMap_nil]
  rw [c4_score_b, c4_score_a]
  simp [hpos, List.insertionSort, List.orderedInsert]

/-- C4 (counterexample): with candidates `["b", "a"]` whose scores tie,
the output keeps candidate order `b` before `a`: `sorted(...,
key=lambda x: x[1], reverse=True)` is stable on the input order and does
not re-order ties by ascending `doc_id`, as the claim's pairwise order
(score descending, then doc id ascending) would require. -/
theorem c4_counterexample :
    ((score_documents Real.log c4Index ["xx".data] ["b".data, "a".data]).map (fun p => p.1)
        = ["b".data, "a".data])
    ∧ ¬ (score_documents Real.log c4Index ["xx".data] ["b".data, "a".data]).Pairwise
        (fun p q => q.2 < p.2 ∨ (q.2 = p.2 ∧ lexLe p.1 q.1 = true ∧ p.1 ≠ q.1)) := by
  rw [c4_out]
  constructor
  · rfl
  · intro h
    have h2 := (List.pairwise_cons.mp h).1 ("a".data, Real.log ((3 : ℝ) / 2)) (by simp)
    rcases h2 with h2 | ⟨_, hlex, _⟩
    · exact lt_irrefl _ h2
    · exact absurd hlex (by decide)
